import Mathlib

/-!
Formal model of the duplicate-extension manager (`main.py`).

Strings are modelled as `List Char` (`Str`).  Directory names, semantic
versions, the grouping dictionary, duplicate filtering, latest-version
selection and the remediation phase of `remove_duplicates` are embedded
as executable Lean functions.  Filesystem and console effects of the
remediation phase are reified as an event trace; the outcome of each
`shutil.move` call is supplied by an oracle so that failure handling can
be stated.  Python `os.path.join` is modelled POSIX-style (a single `/`
separator) and `str.lower` on the ASCII range, which is what the
confirmation prompt compares against.
-/

namespace VSCodeDup

/-- Strings of the modelled program: lists of characters. -/
abbrev Str := List Char

/-- Decimal digit test, as in the semver grammar `[0-9]`. -/
def isDigitCh (c : Char) : Bool := decide ('0' ≤ c) && decide (c ≤ '9')

/-- ASCII letter test, as in the semver grammar `[A-Za-z]`. -/
def isAlphaCh (c : Char) : Bool :=
  (decide ('A' ≤ c) && decide (c ≤ 'Z')) || (decide ('a' ≤ c) && decide (c ≤ 'z'))

/-- Numeric value of a decimal digit character. -/
def digitVal (c : Char) : Nat := c.toNat - 48

/-- Value of a decimal digit string, most significant digit first. -/
def digitsToNat (s : Str) : Nat := s.foldl (fun a c => 10 * a + digitVal c) 0

/-- Parse of one numeric component of a semantic version: a nonempty
digit string with no leading zero (`0 | [1-9][0-9]*`). -/
def parseNum : Str → Option Nat
  | [] => none
  | [c] => if isDigitCh c then some (digitVal c) else none
  | c :: c2 :: cs =>
    if c = '0' then none
    else if (c :: c2 :: cs).all isDigitCh then some (digitsToNat (c :: c2 :: cs))
    else none

/-- Auxiliary splitter: first field and remaining fields of a separated string. -/
def splitOnCharAux (sep : Char) : Str → Str × List Str
  | [] => ([], [])
  | c :: cs =>
    if c = sep then ([], (splitOnCharAux sep cs).1 :: (splitOnCharAux sep cs).2)
    else (c :: (splitOnCharAux sep cs).1, (splitOnCharAux sep cs).2)

/-- Python `s.split(sep)` for a one-character separator: always returns at
least one (possibly empty) field. -/
def splitOnChar (sep : Char) (s : Str) : List Str :=
  (splitOnCharAux sep s).1 :: (splitOnCharAux sep s).2

/-- Python `sep.join(fields)` for a one-character separator. -/
def joinChar (sep : Char) : List Str → Str
  | [] => []
  | [p] => p
  | p :: p2 :: ps => p ++ sep :: joinChar sep (p2 :: ps)

/-- Split a string at the first occurrence of `sep`, if any. -/
def splitAtFirst (sep : Char) : Str → Str × Option Str
  | [] => ([], none)
  | c :: cs =>
    if c = sep then ([], some cs)
    else (c :: (splitAtFirst sep cs).1, (splitAtFirst sep cs).2)

/-- Semantic version as stored by `semver.VersionInfo`: three numeric
components, plus the prerelease and build-metadata identifier lists. -/
structure Version where
  major : Nat
  minor : Nat
  patch : Nat
  prerelease : List Str
  build : List Str
deriving DecidableEq

/-- Characters allowed in prerelease and build identifiers: `[0-9A-Za-z-]`. -/
def validIdChar (c : Char) : Bool := isDigitCh c || isAlphaCh c || c = '-'

/-- Reject a multi-digit string starting with `0` (semver forbids leading
zeros in numeric identifiers). -/
def noLeadingZero : Str → Bool
  | '0' :: _ :: _ => false
  | _ => true

/-- Valid prerelease identifier: nonempty, allowed characters, and no
leading zero when fully numeric. -/
def validPreId (id : Str) : Bool :=
  !id.isEmpty && id.all validIdChar && (!(id.all isDigitCh) || noLeadingZero id)

/-- Valid build identifier: nonempty with allowed characters. -/
def validBuildId (id : Str) : Bool := !id.isEmpty && id.all validIdChar

/-- Grammar of the optional prerelease part, after the first `-` of the
part before the first `+`: dot-separated valid identifiers. -/
def parsePre : Option Str → Option (List Str)
  | none => some []
  | some ps => if (splitOnChar '.' ps).all validPreId then some (splitOnChar '.' ps) else none

/-- Parse of the optional build-metadata part, after the first `+`. -/
def parseBuild : Option Str → Option (List Str)
  | none => some []
  | some bs => if (splitOnChar '.' bs).all validBuildId then some (splitOnChar '.' bs) else none

/-- Embedding of `semver.VersionInfo.parse`, continued: the core
`major.minor.patch` comes before the first `-` of the part before the
first `+`; the prerelease part is what follows that `-`, the build part
what follows the `+`.  Returns `none` exactly when the Python call
raises `ValueError`. -/
def parseVersion (s : Str) : Option Version :=
  match splitOnChar '.' (splitAtFirst '-' (splitAtFirst '+' s).1).1 with
  | [a, b, c] =>
    match parseNum a, parseNum b, parseNum c with
    | some mj, some mn, some pt =>
      match parsePre (splitAtFirst '-' (splitAtFirst '+' s).1).2,
          parseBuild (splitAtFirst '+' s).2 with
      | some p, some b => some ⟨mj, mn, pt, p, b⟩
      | _, _ => none
    | _, _, _ => none
  | _ => none

/-- Loop body of the version-detection scan in `get_extension_data`
(lines 44-53 of `main.py`): try each index `i` in the given order; the
candidate version string is the join of `parts[i:]` and on a successful
parse the name is the join of `parts[:i]`. -/
def trySplits (parts : List Str) : List Nat → Option (Str × Str)
  | [] => none
  | i :: is =>
    if (parseVersion (joinChar '-' (parts.drop i))).isSome then
      some (joinChar '-' (parts.take i), joinChar '-' (parts.drop i))
    else trySplits parts is

/-- Index sequence of Python `range(len(parts) - 1, 0, -1)`:
`[n-1, n-2, ..., 1]`. -/
def splitIndices (n : Nat) : List Nat := (List.range' 1 (n - 1)).reverse

/-- Name/version split performed on one directory name by
`get_extension_data`: split on `-`, scan indices from `len(parts)-1`
down to `1`, and fall back to the whole name with no version string. -/
def parseDirName (dir : Str) : Str × Option Str :=
  match trySplits (splitOnChar '-' dir) (splitIndices (splitOnChar '-' dir).length) with
  | some nv => (nv.1, some nv.2)
  | none => (dir, none)

/-- Modelled from the spec: the longest-suffix-first search the spec
describes for the parser — "trying the longest trailing dot/hyphen-
delimited suffix first, shrinking until a valid semantic-version parse
succeeds" — i.e. the same candidate loop but with index order
`1, 2, ..., len-1` (index 1 keeps the longest suffix), with the same
fallback. -/
def longestFirstSplit (dir : Str) : Str × Option Str :=
  match trySplits (splitOnChar '-' dir) (List.range' 1 ((splitOnChar '-' dir).length - 1)) with
  | some nv => (nv.1, some nv.2)
  | none => (dir, none)

/-- The accumulated dictionary: insertion-ordered association list from
extension name to its list of parsed versions. -/
abbrev ExtData := List (Str × List Version)

/-- First-match association-list lookup (Python dict indexing). -/
def alistLookup {β : Type} : List (Str × β) → Str → Option β
  | [], _ => none
  | (k, v) :: rest, key => if k = key then some v else alistLookup rest key

/-- Python `d.setdefault(name, [])`: append a fresh empty entry when the
key is absent, keep the dictionary unchanged otherwise. -/
def setdefaultEmpty (d : ExtData) (k : Str) : ExtData :=
  if (alistLookup d k).isSome then d else d ++ [(k, [])]

/-- Python `d[name].extend(vs)`: extend the version list of the first
entry with the given key. -/
def extendAt : ExtData → Str → List Version → ExtData
  | [], _, _ => []
  | (k, v) :: rest, key, vs =>
    if k = key then (k, v ++ vs) :: rest else (k, v) :: extendAt rest key vs

/-- Diagnostic record for the dead `except ValueError` branch of
`get_extension_data`: the directory name and the offending version string. -/
abbrev Diag := Str × Str

/-- Processing of one `os.listdir` entry by `get_extension_data`: ignore
non-directories; otherwise split the name, `setdefault` the key, and when
a version string was found re-parse it, extending the entry on success
and recording a diagnostic (plus extending with nothing) on failure. -/
def scanStep (st : ExtData × List Diag) (e : Str × Bool) : ExtData × List Diag :=
  if e.2 then
    match (parseDirName e.1).2 with
    | none => (setdefaultEmpty st.1 (parseDirName e.1).1, st.2)
    | some vstr =>
      match parseVersion vstr with
      | some v =>
        (extendAt (setdefaultEmpty st.1 (parseDirName e.1).1) (parseDirName e.1).1 [v], st.2)
      | none =>
        (extendAt (setdefaultEmpty st.1 (parseDirName e.1).1) (parseDirName e.1).1 [],
          st.2 ++ [(e.1, vstr)])
  else st

/-- Embedding of `get_extension_data`: fold the per-entry step over the
directory listing, starting from the empty dictionary; an entry is a
name paired with its `os.path.isdir` result.  Returns the dictionary and
the emitted diagnostics. -/
def getExtensionData (entries : List (Str × Bool)) : ExtData × List Diag :=
  entries.foldl scanStep ([], [])

/-- Embedding of `find_duplicates`: keep exactly the entries whose
version list has more than one element. -/
def findDuplicates (d : ExtData) : ExtData :=
  d.filter (fun p => decide (1 < p.2.length))

/-- Character comparison by code point, as Python string comparison does. -/
def cmpChar (a b : Char) : Ordering := compare a.toNat b.toNat

/-- Lexicographic comparison of lists: elementwise, the shorter list
first when one is a proper prefix of the other. -/
def lexCmp (cmp : α → α → Ordering) : List α → List α → Ordering
  | [], [] => .eq
  | [], _ :: _ => .lt
  | _ :: _, [] => .gt
  | a :: as, b :: bs => (cmp a b).then (lexCmp cmp as bs)

/-- Comparison of two prerelease identifiers exactly as `python-semver`
does: two numeric identifiers compare numerically, a numeric identifier
is below a non-numeric one, and two non-numeric identifiers compare as
strings. -/
def cmpIdent (a b : Str) : Ordering :=
  if a.all isDigitCh then
    if b.all isDigitCh then compare (digitsToNat a) (digitsToNat b) else .lt
  else
    if b.all isDigitCh then .gt else lexCmp cmpChar a b

/-- Comparison of prerelease lists: the absence of a prerelease has the
higher precedence; otherwise identifiers compare lexicographically. -/
def cmpPre : List Str → List Str → Ordering
  | [], [] => .eq
  | [], _ :: _ => .gt
  | _ :: _, [] => .lt
  | a :: as, b :: bs => lexCmp cmpIdent (a :: as) (b :: bs)

/-- Semantic-version precedence as implemented by `semver.VersionInfo`
comparisons: major, minor, patch numerically, then the prerelease rule.
Build metadata is ignored, so `Ordering.eq` is precedence equality, not
structural equality. -/
def cmpVersion (x y : Version) : Ordering :=
  (compare x.major y.major).then
    ((compare x.minor y.minor).then
      ((compare x.patch y.patch).then (cmpPre x.prerelease y.prerelease)))

/-- Python `max(v :: vs)`: fold keeping the current element unless the
next one is strictly greater (so the first maximal element wins). -/
def pyMaxCore (v : Version) (vs : List Version) : Version :=
  vs.foldl (fun a b => if cmpVersion a b = .lt then b else a) v

/-- Maximum of a version list, `Version.zero` on the empty list (the
empty case is never reached through `find_duplicates`). -/
def pyMaxOf : List Version → Version
  | [] => ⟨0, 0, 0, [], []⟩
  | v :: vs => pyMaxCore v vs

/-- Embedding of `get_latest_versions`: map `max` over the dictionary.
Python `max` raises on an empty list, modelled by `none`. -/
def getLatestVersions : List (Str × List Version) → Option (List (Str × Version))
  | [] => some []
  | (name, versions) :: rest =>
    match versions with
    | [] => none
    | v :: vs =>
      match getLatestVersions rest with
      | none => none
      | some l => some ((name, pyMaxCore v vs) :: l)

/-- Decimal rendering of a natural number, used by Python string
interpolation of version components. -/
def digitCh (n : Nat) : Char :=
  match n with
  | 0 => '0' | 1 => '1' | 2 => '2' | 3 => '3' | 4 => '4'
  | 5 => '5' | 6 => '6' | 7 => '7' | 8 => '8' | _ => '9'

/-- Decimal digit string of a natural number, no leading zeros. -/
def natToChars (n : Nat) : Str :=
  if _h : n < 10 then [digitCh n]
  else natToChars (n / 10) ++ [digitCh (n % 10)]
decreasing_by exact Nat.div_lt_self (by omega) (by omega)

/-- Python `str(version)` on a `semver.VersionInfo`:
`major.minor.patch`, then `-prerelease` and `+build` when present. -/
def renderVersion (v : Version) : Str :=
  natToChars v.major ++ '.' :: natToChars v.minor ++ '.' :: natToChars v.patch
    ++ (match v.prerelease with | [] => [] | p :: ps => '-' :: joinChar '.' (p :: ps))
    ++ (match v.build with | [] => [] | b :: bs => '+' :: joinChar '.' (b :: bs))

/-- Directory name `f"{name}-{version}"` built by `remove_duplicates`. -/
def dirNameOf (name : Str) (v : Version) : Str := name ++ '-' :: renderVersion v

/-- Canonical `"<major>.<minor>.<patch>"` version string. -/
def verStr (mj mn pt : Nat) : Str :=
  natToChars mj ++ '.' :: natToChars mn ++ '.' :: natToChars pt

/-- Python `os.path.join`, modelled POSIX-style. -/
def pathJoin (a b : Str) : Str := a ++ '/' :: b

/-- The fixed quarantine directory name `"old_versions"`, resolved
relative to the current working directory (it never mentions the
scanned root). -/
def oldVersionsDir : Str := "old_versions".toList

/-- Python `str.lower` on the ASCII range. -/
def pyLowerChar (c : Char) : Char :=
  if 'A' ≤ c ∧ c ≤ 'Z' then Char.ofNat (c.toNat + 32) else c

/-- Python `s.lower()` on the ASCII range. -/
def pyLower (s : Str) : Str := s.map pyLowerChar

/-- Observable effects of `remove_duplicates`, in program order.  Each
`shutil.move` call is recorded as a `moveAttempt` carrying the loop
variables that generated it, followed by the success or failure print. -/
inductive Event where
  | mkdirOldVersions : Event
  | moveAttempt : Str → Version → Str → Str → Event
  | movedOk : Str → Str → Event
  | moveError : Str → Str → Str → Event
  | printNoDuplicatesRemoved : Event
deriving DecidableEq

/-- Outcome oracle for `shutil.move`: `none` means the move succeeds,
`some reason` that it raises with the given message. -/
abbrev MoveOracle := Str → Str → Option Str

/-- Inner loop of the confirmed branch of `remove_duplicates` for a
single extension: attempt a move for every version whose precedence is
not equal to the latest one, recording the attempt and the printed
result line. -/
def moveEventsFor (root : Str) (oracle : MoveOracle) (lv : Version) (name : Str) :
    List Version → List Event
  | [] => []
  | v :: vs =>
    (if cmpVersion v lv = .eq then []
     else
       Event.moveAttempt name v (pathJoin root (dirNameOf name v))
           (pathJoin oldVersionsDir (dirNameOf name v)) ::
         (match oracle (pathJoin root (dirNameOf name v))
             (pathJoin oldVersionsDir (dirNameOf name v)) with
          | none => [Event.movedOk (pathJoin root (dirNameOf name v))
              (pathJoin oldVersionsDir (dirNameOf name v))]
          | some r => [Event.moveError (pathJoin root (dirNameOf name v))
              (pathJoin oldVersionsDir (dirNameOf name v)) r]))
      ++ moveEventsFor root oracle lv name vs

/-- Outer loop of the confirmed branch of `remove_duplicates`: look up
each extension's latest version (`latest_versions[name]`; a missing key
would raise `KeyError`, modelled by `none`) and run the inner loop. -/
def execMoves (root : Str) (latest : List (Str × Version)) (oracle : MoveOracle) :
    List (Str × List Version) → Option (List Event)
  | [] => some []
  | (name, versions) :: rest =>
    match alistLookup latest name with
    | none => none
    | some lv =>
      match execMoves root latest oracle rest with
      | none => none
      | some evs => some (moveEventsFor root oracle lv name versions ++ evs)

/-- Embedding of `remove_duplicates` (lines 151-179 of `main.py`): with
duplicates present, confirmation is `--auto-approve` or an interactive
answer whose lowering equals `"yes"`; a confirmed run creates the
quarantine directory and performs the moves, a declined run prints
`No duplicates removed.`, and without duplicates nothing happens. -/
def removeDuplicates (dups : List (Str × List Version)) (latest : List (Str × Version))
    (root : Str) (autoApprove : Bool) (answer : Str) (oracle : MoveOracle) :
    Option (List Event) :=
  if dups.isEmpty then some []
  else
    if autoApprove || (!autoApprove && decide (pyLower answer = "yes".toList)) then
      match execMoves root latest oracle dups with
      | none => none
      | some evs => some (Event.mkdirOldVersions :: evs)
    else some [Event.printNoDuplicatesRemoved]

/-- Projection of the move attempts out of an event trace, with the
generating name and version and the source and destination paths. -/
def attemptsOf : List Event → List (Str × Version × Str × Str)
  | [] => []
  | Event.moveAttempt n v s d :: rest => (n, v, s, d) :: attemptsOf rest
  | _ :: rest => attemptsOf rest

/-- Expected full event trace of the confirmed move loop: for each
dictionary entry in order, the inner-loop events computed with that
entry's own latest version. -/
def expectedEvents (root : Str) (oracle : MoveOracle) : List (Str × List Version) → List Event
  | [] => []
  | (name, versions) :: rest =>
    moveEventsFor root oracle (pyMaxOf versions) name versions
      ++ expectedEvents root oracle rest

/-- Expected move attempts of the confirmed move loop: per entry, one
attempt for every version whose precedence differs from the entry's
latest, from `<root>/<name>-<version>` to
`<old_versions>/<name>-<version>`. -/
def expectedAttempts (root : Str) (dups : List (Str × List Version)) :
    List (Str × Version × Str × Str) :=
  dups.flatMap (fun p =>
    (p.2.filter (fun v => decide (cmpVersion v (pyMaxOf p.2) ≠ .eq))).map
      (fun v => (p.1, v, pathJoin root (dirNameOf p.1 v),
        pathJoin oldVersionsDir (dirNameOf p.1 v))))

/-- Sample version `1.0.0`, used in concrete witnesses. -/
def v100 : Version := ⟨1, 0, 0, [], []⟩

/-- Sample version `1.1.0`, used in concrete witnesses. -/
def v110 : Version := ⟨1, 1, 0, [], []⟩

/-- Sample version `2.0.0`, used in concrete witnesses. -/
def v200 : Version := ⟨2, 0, 0, [], []⟩

/-- Sample grouped dictionary with one duplicate name, used in witnesses. -/
def sampleData : ExtData := [("foo".toList, [v100, v110])]

/-- Sample grouped dictionary with two duplicate names, used in witnesses. -/
def sampleData2 : ExtData :=
  [("foo".toList, [v100, v110]), ("bar".toList, [v200, v100])]

/-- Oracle making every move raise, used in witnesses. -/
def failOracle : MoveOracle := fun _ _ => some "Move failed".toList

/-! Comparator laws.  The precedence order used by `max` and by the
`!=` tests is shown to be an oriented, transitive comparator, building
on the `Batteries` comparator classes. -/

instance : Batteries.OrientedCmp cmpChar where
  symm a b := @Batteries.OrientedCmp.symm Nat compare inferInstance a.toNat b.toNat

instance : Batteries.TransCmp cmpChar where
  le_trans h1 h2 := @Batteries.TransCmp.le_trans Nat compare inferInstance _ _ _ h1 h2

theorem lexCmp_swap (cmp : α → α → Ordering) [Batteries.OrientedCmp cmp] :
    ∀ a b : List α, (lexCmp cmp a b).swap = lexCmp cmp b a
  | [], [] => rfl
  | [], _ :: _ => rfl
  | _ :: _, [] => rfl
  | a :: as, b :: bs => by
    simp only [lexCmp, Ordering.swap_then, Batteries.OrientedCmp.symm,
      lexCmp_swap cmp as bs]

instance (cmp : α → α → Ordering) [Batteries.OrientedCmp cmp] :
    Batteries.OrientedCmp (lexCmp cmp) where
  symm a b := lexCmp_swap cmp a b

theorem lexCmp_le_trans (cmp : α → α → Ordering) [Batteries.TransCmp cmp] :
    ∀ a b c : List α,
      lexCmp cmp a b ≠ .gt → lexCmp cmp b c ≠ .gt → lexCmp cmp a c ≠ .gt
  | [], _, c, _, _ => by cases c <;> simp [lexCmp]
  | _ :: _, [], _, h1, _ => absurd rfl h1
  | _ :: _, _ :: _, [], _, h2 => absurd rfl h2
  | a :: as, b :: bs, c :: cs, h1, h2 => by
    simp only [lexCmp, ne_eq, Ordering.then_eq_gt, not_or, not_and] at h1 h2 ⊢
    obtain ⟨hab, hab2⟩ := h1
    obtain ⟨hbc, hbc2⟩ := h2
    refine ⟨Batteries.TransCmp.le_trans hab hbc, fun hac => ?_⟩
    cases heq : cmp a b with
    | gt => exact absurd heq hab
    | eq =>
      have hbc' : cmp b c = .eq := by
        rw [← Batteries.TransCmp.cmp_congr_left heq, hac]
      exact lexCmp_le_trans cmp as bs cs (hab2 heq) (hbc2 hbc')
    | lt =>
      have : cmp c b = .lt := by
        rw [← Batteries.TransCmp.cmp_congr_left hac, heq]
      exact absurd (Batteries.OrientedCmp.cmp_eq_gt.mpr this) hbc

instance (cmp : α → α → Ordering) [Batteries.TransCmp cmp] :
    Batteries.TransCmp (lexCmp cmp) where
  le_trans := lexCmp_le_trans cmp _ _ _

theorem cmpIdent_dd {a b : Str} (ha : a.all isDigitCh = true) (hb : b.all isDigitCh = true) :
    cmpIdent a b = compare (digitsToNat a) (digitsToNat b) := by
  unfold cmpIdent; rw [if_pos ha, if_pos hb]

theorem cmpIdent_dn {a b : Str} (ha : a.all isDigitCh = true) (hb : ¬b.all isDigitCh = true) :
    cmpIdent a b = .lt := by
  unfold cmpIdent; rw [if_pos ha, if_neg hb]

theorem cmpIdent_nd {a b : Str} (ha : ¬a.all isDigitCh = true) (hb : b.all isDigitCh = true) :
    cmpIdent a b = .gt := by
  unfold cmpIdent; rw [if_neg ha, if_pos hb]

theorem cmpIdent_nn {a b : Str} (ha : ¬a.all isDigitCh = true) (hb : ¬b.all isDigitCh = true) :
    cmpIdent a b = lexCmp cmpChar a b := by
  unfold cmpIdent; rw [if_neg ha, if_neg hb]

theorem cmpIdent_swap (a b : Str) : (cmpIdent a b).swap = cmpIdent b a := by
  by_cases ha : a.all isDigitCh = true <;> by_cases hb : b.all isDigitCh = true
  · rw [cmpIdent_dd ha hb, cmpIdent_dd hb ha]
    exact @Batteries.OrientedCmp.symm Nat compare inferInstance ..
  · rw [cmpIdent_dn ha hb, cmpIdent_nd hb ha]; rfl
  · rw [cmpIdent_nd ha hb, cmpIdent_dn hb ha]; rfl
  · rw [cmpIdent_nn ha hb, cmpIdent_nn hb ha]
    exact lexCmp_swap cmpChar a b

instance : Batteries.OrientedCmp cmpIdent where
  symm a b := cmpIdent_swap a b

theorem cmpIdent_le_trans (a b c : Str)
    (h1 : cmpIdent a b ≠ .gt) (h2 : cmpIdent b c ≠ .gt) : cmpIdent a c ≠ .gt := by
  by_cases ha : a.all isDigitCh = true <;> by_cases hb : b.all isDigitCh = true <;>
    by_cases hc : c.all isDigitCh = true
  · rw [cmpIdent_dd ha hb] at h1; rw [cmpIdent_dd hb hc] at h2; rw [cmpIdent_dd ha hc]
    exact @Batteries.TransCmp.le_trans Nat compare inferInstance _ _ _ h1 h2
  · rw [cmpIdent_dn ha hc]; exact fun h => nomatch h
  · exact absurd (cmpIdent_nd hb hc) h2
  · rw [cmpIdent_dn ha hc]; exact fun h => nomatch h
  · exact absurd (cmpIdent_nd ha hb) h1
  · exact absurd (cmpIdent_nd ha hb) h1
  · exact absurd (cmpIdent_nd hb hc) h2
  · rw [cmpIdent_nn ha hb] at h1; rw [cmpIdent_nn hb hc] at h2; rw [cmpIdent_nn ha hc]
    exact lexCmp_le_trans cmpChar a b c h1 h2

instance : Batteries.TransCmp cmpIdent where
  le_trans := cmpIdent_le_trans _ _ _

theorem cmpPre_swap : ∀ a b : List Str, (cmpPre a b).swap = cmpPre b a
  | [], [] => rfl
  | [], _ :: _ => rfl
  | _ :: _, [] => rfl
  | a :: as, b :: bs => lexCmp_swap cmpIdent (a :: as) (b :: bs)

instance : Batteries.OrientedCmp cmpPre where
  symm a b := cmpPre_swap a b

theorem cmpPre_le_trans :
    ∀ a b c : List Str, cmpPre a b ≠ .gt → cmpPre b c ≠ .gt → cmpPre a c ≠ .gt
  | [], [], [], _, _ => fun h => nomatch h
  | [], [], _ :: _, _, h2 => absurd rfl h2
  | [], _ :: _, _, h1, _ => absurd rfl h1
  | _ :: _, [], [], _, _ => fun h => nomatch h
  | _ :: _, [], _ :: _, _, h2 => absurd rfl h2
  | _ :: _, _ :: _, [], _, _ => fun h => nomatch h
  | a :: as, b :: bs, c :: cs, h1, h2 =>
    lexCmp_le_trans cmpIdent (a :: as) (b :: bs) (c :: cs) h1 h2

instance : Batteries.TransCmp cmpPre where
  le_trans := cmpPre_le_trans _ _ _

instance : Batteries.OrientedCmp (fun x y : Version => compare x.major y.major) where
  symm x y := @Batteries.OrientedCmp.symm Nat compare inferInstance x.major y.major

instance : Batteries.TransCmp (fun x y : Version => compare x.major y.major) where
  le_trans h1 h2 := @Batteries.TransCmp.le_trans Nat compare inferInstance _ _ _ h1 h2

instance : Batteries.OrientedCmp (fun x y : Version => compare x.minor y.minor) where
  symm x y := @Batteries.OrientedCmp.symm Nat compare inferInstance x.minor y.minor

instance : Batteries.TransCmp (fun x y : Version => compare x.minor y.minor) where
  le_trans h1 h2 := @Batteries.TransCmp.le_trans Nat compare inferInstance _ _ _ h1 h2

instance : Batteries.OrientedCmp (fun x y : Version => compare x.patch y.patch) where
  symm x y := @Batteries.OrientedCmp.symm Nat compare inferInstance x.patch y.patch

instance : Batteries.TransCmp (fun x y : Version => compare x.patch y.patch) where
  le_trans h1 h2 := @Batteries.TransCmp.le_trans Nat compare inferInstance _ _ _ h1 h2

instance : Batteries.OrientedCmp (fun x y : Version => cmpPre x.prerelease y.prerelease) where
  symm x y := @Batteries.OrientedCmp.symm _ cmpPre inferInstance x.prerelease y.prerelease

instance : Batteries.TransCmp (fun x y : Version => cmpPre x.prerelease y.prerelease) where
  le_trans h1 h2 := @Batteries.TransCmp.le_trans _ cmpPre inferInstance _ _ _ h1 h2

instance : Batteries.OrientedCmp cmpVersion :=
  inferInstanceAs (Batteries.OrientedCmp
    (compareLex (fun x y : Version => compare x.major y.major)
      (compareLex (fun x y => compare x.minor y.minor)
        (compareLex (fun x y => compare x.patch y.patch)
          (fun x y => cmpPre x.prerelease y.prerelease)))))

instance : Batteries.TransCmp cmpVersion :=
  inferInstanceAs (Batteries.TransCmp
    (compareLex (fun x y : Version => compare x.major y.major)
      (compareLex (fun x y => compare x.minor y.minor)
        (compareLex (fun x y => compare x.patch y.patch)
          (fun x y => cmpPre x.prerelease y.prerelease)))))

/-! Properties of the Python `max` fold. -/

theorem pyMaxCore_cons (v b : Version) (bs : List Version) :
    pyMaxCore v (b :: bs) = pyMaxCore (if cmpVersion v b = .lt then b else v) bs := rfl

theorem pyMaxCore_mem (v : Version) (vs : List Version) : pyMaxCore v vs ∈ v :: vs := by
  induction vs generalizing v with
  | nil => simp [pyMaxCore]
  | cons b bs ih =>
    rw [pyMaxCore_cons]
    have h := ih (if cmpVersion v b = .lt then b else v)
    rcases List.mem_cons.mp h with h | h
    · rw [h]
      split
      · exact List.mem_cons_of_mem _ (List.mem_cons_self _ _)
      · exact List.mem_cons_self _ _
    · exact List.mem_cons_of_mem _ (List.mem_cons_of_mem _ h)

theorem pyMaxCore_ge (v : Version) (vs : List Version) :
    ∀ x ∈ v :: vs, cmpVersion x (pyMaxCore v vs) ≠ .gt := by
  induction vs generalizing v with
  | nil =>
    intro x hx
    rw [List.mem_singleton] at hx
    subst hx
    rw [pyMaxCore, List.foldl_nil, @Batteries.OrientedCmp.cmp_refl _ cmpVersion _ inferInstance]
    exact fun h => nomatch h
  | cons b bs ih =>
    intro x hx
    by_cases hvb : cmpVersion v b = .lt
    · rw [pyMaxCore_cons, if_pos hvb]
      rcases List.mem_cons.mp hx with rfl | hx'
      · exact Batteries.TransCmp.le_trans (fun h => nomatch hvb.symm.trans h)
          (ih b b (List.mem_cons_self b bs))
      · exact ih b x hx'
    · rw [pyMaxCore_cons, if_neg hvb]
      rcases List.mem_cons.mp hx with rfl | hx'
      · exact ih x x (List.mem_cons_self x bs)
      rcases List.mem_cons.mp hx' with rfl | hx''
      · have hbv : cmpVersion x v ≠ .gt := fun h =>
          hvb (Batteries.OrientedCmp.cmp_eq_gt.mp h)
        exact Batteries.TransCmp.le_trans hbv (ih v v (List.mem_cons_self v bs))
      · exact ih v x (List.mem_cons_of_mem _ hx'')

theorem pyMaxOf_mem {vs : List Version} (h : vs ≠ []) : pyMaxOf vs ∈ vs := by
  match vs, h with
  | v :: rest, _ => exact pyMaxCore_mem v rest

theorem pyMaxOf_ge {vs : List Version} : ∀ x ∈ vs, cmpVersion x (pyMaxOf vs) ≠ .gt := by
  match vs with
  | [] => intro x hx; exact absurd hx (List.not_mem_nil x)
  | v :: rest => exact pyMaxCore_ge v rest

theorem getLatestVersions_eq (d : List (Str × List Version)) (h : ∀ p ∈ d, p.2 ≠ []) :
    getLatestVersions d = some (d.map (fun p => (p.1, pyMaxOf p.2))) := by
  induction d with
  | nil => rfl
  | cons p rest ih =>
    obtain ⟨name, versions⟩ := p
    have hne : versions ≠ [] := h (name, versions) (List.mem_cons_self _ _)
    match versions, hne with
    | v :: vs, _ =>
      rw [getLatestVersions, ih (fun q hq => h q (List.mem_cons_of_mem _ hq))]
      rfl

theorem mem_findDuplicates {d : ExtData} {p : Str × List Version} :
    p ∈ findDuplicates d ↔ p ∈ d ∧ 1 < p.2.length := by
  simp [findDuplicates, List.mem_filter]

theorem findDuplicates_entries_nonempty {d : ExtData} :
    ∀ p ∈ findDuplicates d, p.2 ≠ [] := by
  intro p hp
  have := (mem_findDuplicates.mp hp).2
  intro hnil
  rw [hnil] at this
  exact absurd this (by simp)

/-- C6: `find_duplicates` returns exactly the restriction of the input
mapping to keys whose version list has length greater than one: an entry
is in the output iff it is in the input and has more than one version
(so every retained key keeps its original version list unchanged), and
the output key sequence is a subsequence of the input key sequence (no
key is added, renamed, duplicated or reordered).  The function is pure,
so the input mapping is not mutated. -/
theorem find_duplicates_is_restriction (d : ExtData) :
    (∀ p : Str × List Version, p ∈ findDuplicates d ↔ p ∈ d ∧ 1 < p.2.length)
      ∧ ((findDuplicates d).map Prod.fst).Sublist (d.map Prod.fst) :=
  ⟨fun _ => mem_findDuplicates, (List.filter_sublist d).map Prod.fst⟩

/-- Witness for C6 on a concrete dictionary with one duplicate and one
singleton entry. -/
theorem find_duplicates_is_restriction_witness :
    (("bar".toList, [v200]) ∉ findDuplicates (sampleData ++ [("bar".toList, [v200])]))
      ∧ ("foo".toList, [v100, v110]) ∈ findDuplicates (sampleData ++ [("bar".toList, [v200])]) := by
  have h := find_duplicates_is_restriction (sampleData ++ [("bar".toList, [v200])])
  constructor
  · intro hmem
    have := (h.1 _).mp hmem
    exact absurd this.2 (by decide)
  · exact (h.1 _).mpr (by decide)

/-- C5: for every duplicate name, `get_latest_versions` succeeds and maps
the name to the Python `max` of its version list; that value is an
element of the list and is greater than or equal to every element of the
list under semantic-version precedence. -/
theorem get_latest_versions_is_max (data : ExtData) (name : Str) (vs : List Version)
    (h : (name, vs) ∈ findDuplicates data) :
    getLatestVersions (findDuplicates data)
        = some ((findDuplicates data).map (fun p => (p.1, pyMaxOf p.2)))
      ∧ (name, pyMaxOf vs) ∈ (findDuplicates data).map (fun p => (p.1, pyMaxOf p.2))
      ∧ pyMaxOf vs ∈ vs
      ∧ ∀ v ∈ vs, cmpVersion v (pyMaxOf vs) ≠ .gt := by
  have hne : vs ≠ [] := findDuplicates_entries_nonempty (name, vs) h
  refine ⟨getLatestVersions_eq _ findDuplicates_entries_nonempty, ?_, pyMaxOf_mem hne,
    pyMaxOf_ge⟩
  exact List.mem_map_of_mem (fun p => (p.1, pyMaxOf p.2)) h

/-! Trace lemmas for the remediation phase. -/

theorem attemptsOf_append :
    ∀ e1 e2 : List Event, attemptsOf (e1 ++ e2) = attemptsOf e1 ++ attemptsOf e2
  | [], _ => rfl
  | e :: rest, e2 => by
    cases e <;> simp [attemptsOf, attemptsOf_append rest e2]

theorem attemptsOf_moveEventsFor (root : Str) (oracle : MoveOracle) (lv : Version)
    (name : Str) :
    ∀ vs : List Version,
      attemptsOf (moveEventsFor root oracle lv name vs)
        = (vs.filter (fun v => decide (cmpVersion v lv ≠ .eq))).map
            (fun v => (name, v, pathJoin root (dirNameOf name v),
              pathJoin oldVersionsDir (dirNameOf name v)))
  | [] => rfl
  | v :: vs => by
    rw [moveEventsFor, attemptsOf_append, attemptsOf_moveEventsFor root oracle lv name vs]
    by_cases hv : cmpVersion v lv = .eq
    · rw [if_pos hv]
      simp [List.filter_cons, hv, attemptsOf]
    · rw [if_neg hv]
      cases horacle : oracle (pathJoin root (dirNameOf name v))
          (pathJoin oldVersionsDir (dirNameOf name v)) <;>
        simp [List.filter_cons, hv, attemptsOf]

theorem attemptsOf_expectedEvents (root : Str) (oracle : MoveOracle) :
    ∀ dups : List (Str × List Version),
      attemptsOf (expectedEvents root oracle dups) = expectedAttempts root dups
  | [] => rfl
  | (name, versions) :: rest => by
    rw [expectedEvents, attemptsOf_append, attemptsOf_moveEventsFor,
      attemptsOf_expectedEvents root oracle rest]
    rfl

theorem getLatestVersions_some :
    ∀ {d : List (Str × List Version)} {l : List (Str × Version)},
      getLatestVersions d = some l →
        (∀ p ∈ d, p.2 ≠ []) ∧ l = d.map (fun p => (p.1, pyMaxOf p.2)) := by
  intro d
  induction d with
  | nil => intro l h; exact ⟨by simp, by simpa [getLatestVersions] using h.symm⟩
  | cons p rest ih =>
    intro l h
    obtain ⟨name, versions⟩ := p
    match versions with
    | [] => exact absurd h (by simp [getLatestVersions])
    | v :: vs =>
      rw [getLatestVersions] at h
      cases hrest : getLatestVersions rest with
      | none => rw [hrest] at h; exact absurd h (by simp)
      | some l' =>
        rw [hrest] at h
        obtain ⟨hne, hl'⟩ := ih hrest
        refine ⟨?_, ?_⟩
        · intro q hq
          rcases List.mem_cons.mp hq with rfl | hq'
          · simp
          · exact hne q hq'
        · rw [← Option.some_inj.mp h, hl']
          rfl

theorem alistLookup_latest {dups : List (Str × List Version)}
    (hkeys : (dups.map Prod.fst).Nodup) :
    ∀ p ∈ dups,
      alistLookup (dups.map (fun q => (q.1, pyMaxOf q.2))) p.1 = some (pyMaxOf p.2) := by
  induction dups with
  | nil => intro p hp; exact absurd hp (List.not_mem_nil p)
  | cons q rest ih =>
    intro p hp
    rcases List.mem_cons.mp hp with rfl | hp'
    · simp [alistLookup]
    · have hkeys' : (q.1 :: rest.map Prod.fst).Nodup := by
        rw [List.map_cons] at hkeys; exact hkeys
      have hkr := List.nodup_cons.mp hkeys'
      have hne : q.1 ≠ p.1 := fun hqp =>
        hkr.1 (hqp ▸ List.mem_map_of_mem Prod.fst hp')
      rw [List.map_cons, alistLookup, if_neg hne]
      exact ih hkr.2 p hp'

theorem execMoves_eq (root : Str) (oracle : MoveOracle) :
    ∀ (dups : List (Str × List Version)) (latest : List (Str × Version)),
      (∀ p ∈ dups, alistLookup latest p.1 = some (pyMaxOf p.2)) →
      execMoves root latest oracle dups = some (expectedEvents root oracle dups)
  | [], _, _ => rfl
  | (name, versions) :: rest, latest, h => by
    rw [execMoves, h (name, versions) (List.mem_cons_self _ _),
      execMoves_eq root oracle rest latest
        (fun p hp => h p (List.mem_cons_of_mem _ hp))]
    rfl

theorem moveEventsFor_outcome (root : Str) (oracle : MoveOracle) (lv : Version)
    (name : Str) :
    ∀ (vs : List Version) (n : Str) (v : Version) (s d : Str),
      (n, v, s, d) ∈ attemptsOf (moveEventsFor root oracle lv name vs) →
      (oracle s d = none → Event.movedOk s d ∈ moveEventsFor root oracle lv name vs)
        ∧ ∀ r, oracle s d = some r →
            Event.moveError s d r ∈ moveEventsFor root oracle lv name vs
  | [], _, _, _, _, hmem => absurd hmem (List.not_mem_nil _)
  | v0 :: vs, n, v, s, d, hmem => by
    rw [moveEventsFor] at hmem ⊢
    rcases List.mem_append.mp (by rw [← attemptsOf_append]; exact hmem) with hm | hm
    · by_cases hv : cmpVersion v0 lv = .eq
      · rw [if_pos hv] at hm
        exact absurd hm (List.not_mem_nil _)
      · rw [if_neg hv] at hm ⊢
        cases horacle : oracle (pathJoin root (dirNameOf name v0))
            (pathJoin oldVersionsDir (dirNameOf name v0)) with
        | none =>
          rw [horacle] at hm
          simp only [attemptsOf] at hm
          rcases List.mem_singleton.mp hm with ⟨rfl, rfl, rfl, rfl⟩
          refine ⟨fun _ => ?_, fun r hr => ?_⟩
          · simp
          · rw [horacle] at hr; exact absurd hr (by simp)
        | some r0 =>
          rw [horacle] at hm
          simp only [attemptsOf] at hm
          rcases List.mem_singleton.mp hm with ⟨rfl, rfl, rfl, rfl⟩
          refine ⟨fun hn => ?_, fun r hr => ?_⟩
          · rw [horacle] at hn; exact absurd hn (by simp)
          · rw [horacle] at hr
            rcases Option.some_inj.mp hr with rfl
            simp
    · have ih := moveEventsFor_outcome root oracle lv name vs n v s d hm
      refine ⟨fun hn => List.mem_append_right _ (ih.1 hn),
        fun r hr => List.mem_append_right _ (ih.2 r hr)⟩

theorem expectedEvents_outcome (root : Str) (oracle : MoveOracle) :
    ∀ (dups : List (Str × List Version)) (n : Str) (v : Version) (s d : Str),
      (n, v, s, d) ∈ attemptsOf (expectedEvents root oracle dups) →
      (oracle s d = none → Event.movedOk s d ∈ expectedEvents root oracle dups)
        ∧ ∀ r, oracle s d = some r →
            Event.moveError s d r ∈ expectedEvents root oracle dups
  | [], _, _, _, _, hmem => absurd hmem (List.not_mem_nil _)
  | (name, versions) :: rest, n, v, s, d, hmem => by
    rw [expectedEvents] at hmem ⊢
    rcases List.mem_append.mp (by rw [← attemptsOf_append]; exact hmem) with hm | hm
    · have h := moveEventsFor_outcome root oracle (pyMaxOf versions) name versions n v s d hm
      exact ⟨fun hn => List.mem_append_left _ (h.1 hn),
        fun r hr => List.mem_append_left _ (h.2 r hr)⟩
    · have ih := expectedEvents_outcome root oracle rest n v s d hm
      exact ⟨fun hn => List.mem_append_right _ (ih.1 hn),
        fun r hr => List.mem_append_right _ (ih.2 r hr)⟩

theorem removeDuplicates_confirmed
    {dups : List (Str × List Version)} {latest : List (Str × Version)}
    (root : Str) (autoApprove : Bool) (answer : Str) (oracle : MoveOracle)
    (hkeys : (dups.map Prod.fst).Nodup)
    (hlat : getLatestVersions dups = some latest)
    (happr : autoApprove = true ∨ pyLower answer = "yes".toList)
    (hne : dups ≠ []) :
    removeDuplicates dups latest root autoApprove answer oracle
      = some (Event.mkdirOldVersions :: expectedEvents root oracle dups) := by
  obtain ⟨_, hl⟩ := getLatestVersions_some hlat
  have hlook : ∀ p ∈ dups, alistLookup latest p.1 = some (pyMaxOf p.2) := by
    rw [hl]; exact alistLookup_latest hkeys
  have hexec := execMoves_eq root oracle dups latest hlook
  rw [removeDuplicates, if_neg (by simp [hne])]
  rcases happr with rfl | hans
  · simp only [Bool.true_or, if_true, hexec]
  · rw [hans]
    simp only [decide_eq_true_eq, hexec]
    rw [if_pos (by cases autoApprove <;> simp)]

/-- C3: on confirmed remediation the trace opens with the creation of
the quarantine directory and contains exactly one move attempt per
`(name, version)` entry whose version is precedence-unequal (Python
`!=` on `semver.VersionInfo`) to that name's latest, from
`<root>/<name>-<version>` to `old_versions/<name>-<version>`; the
destination is under the constant `oldVersionsDir`, which never mentions
the scanned root (it resolves relative to the working directory), and no
attempt for a name carries a version precedence-equal to that name's
latest, so the directory holding the latest version is never a move
source. -/
theorem remove_duplicates_moves_exactly_nonlatest
    {dups : List (Str × List Version)} {latest : List (Str × Version)}
    (root : Str) (autoApprove : Bool) (answer : Str) (oracle : MoveOracle)
    (hkeys : (dups.map Prod.fst).Nodup)
    (hlat : getLatestVersions dups = some latest)
    (happr : autoApprove = true ∨ pyLower answer = "yes".toList)
    (hne : dups ≠ []) :
    removeDuplicates dups latest root autoApprove answer oracle
        = some (Event.mkdirOldVersions :: expectedEvents root oracle dups)
      ∧ attemptsOf (expectedEvents root oracle dups) = expectedAttempts root dups
      ∧ ∀ p ∈ dups, ∀ v s d,
          (p.1, v, s, d) ∈ expectedAttempts root dups →
            cmpVersion v (pyMaxOf p.2) ≠ .eq := by
  refine ⟨removeDuplicates_confirmed root autoApprove answer oracle hkeys hlat happr hne,
    attemptsOf_expectedEvents root oracle dups, ?_⟩
  intro p hp v s d hmem
  rw [expectedAttempts] at hmem
  rcases List.mem_flatMap.mp hmem with ⟨q, hq, hq2⟩
  rcases List.mem_map.mp hq2 with ⟨v', hv', heq⟩
  have hname : q.1 = p.1 := congrArg (fun t : Str × Version × Str × Str => t.1) heq
  have hv : v' = v := congrArg (fun t : Str × Version × Str × Str => t.2.1) heq
  have hqp : q = p := List.inj_on_of_nodup_map hkeys hq hp hname
  subst hqp
  rw [← hv]
  exact of_decide_eq_true (List.mem_filter.mp hv').2

/-- Witness for C3: auto-approved run on the `foo` sample dictionary
with an always-succeeding move oracle. -/
theorem remove_duplicates_moves_exactly_nonlatest_witness :
    ((sampleData.map Prod.fst).Nodup
        ∧ getLatestVersions sampleData = some [("foo".toList, v110)]
        ∧ sampleData ≠ [])
      ∧ (removeDuplicates sampleData [("foo".toList, v110)] "exts".toList true []
            (fun _ _ => none)
          = some (Event.mkdirOldVersions
              :: expectedEvents "exts".toList (fun _ _ => none) sampleData)
        ∧ attemptsOf (expectedEvents "exts".toList (fun _ _ => none) sampleData)
            = expectedAttempts "exts".toList sampleData
        ∧ ∀ p ∈ sampleData, ∀ v s d,
            (p.1, v, s, d) ∈ expectedAttempts "exts".toList sampleData →
              cmpVersion v (pyMaxOf p.2) ≠ .eq) :=
  ⟨⟨by decide, by decide, by decide⟩,
    remove_duplicates_moves_exactly_nonlatest "exts".toList true [] (fun _ _ => none)
      (by decide) (by decide) (Or.inl rfl) (by decide)⟩

/-- C7: each individual move outcome is supplied by an oracle; for every
oracle the run completes, the attempt list equals `expectedAttempts`,
which does not mention the oracle at all — so a failing move leaves
every other non-latest entry attempted, each exactly once (the lists are
equal elementwise, with multiplicity) — and every attempted move is
followed by its own report line: the success line on `none` and the
error line naming the source path, destination path and reason on
`some reason`. -/
theorem remove_duplicates_failures_isolated
    {dups : List (Str × List Version)} {latest : List (Str × Version)}
    (root : Str) (autoApprove : Bool) (answer : Str) (oracle : MoveOracle)
    (hkeys : (dups.map Prod.fst).Nodup)
    (hlat : getLatestVersions dups = some latest)
    (happr : autoApprove = true ∨ pyLower answer = "yes".toList)
    (hne : dups ≠ []) :
    removeDuplicates dups latest root autoApprove answer oracle
        = some (Event.mkdirOldVersions :: expectedEvents root oracle dups)
      ∧ attemptsOf (expectedEvents root oracle dups) = expectedAttempts root dups
      ∧ ∀ n v s d, (n, v, s, d) ∈ expectedAttempts root dups →
          (oracle s d = none → Event.movedOk s d ∈ expectedEvents root oracle dups)
            ∧ ∀ r, oracle s d = some r →
                Event.moveError s d r ∈ expectedEvents root oracle dups := by
  refine ⟨removeDuplicates_confirmed root autoApprove answer oracle hkeys hlat happr hne,
    attemptsOf_expectedEvents root oracle dups, ?_⟩
  intro n v s d hmem
  exact expectedEvents_outcome root oracle dups n v s d
    (by rw [attemptsOf_expectedEvents]; exact hmem)

/-- Witness for C7: auto-approved run on a two-name dictionary with an
oracle that fails every move. -/
theorem remove_duplicates_failures_isolated_witness :
    ((sampleData2.map Prod.fst).Nodup
        ∧ getLatestVersions sampleData2
            = some [("foo".toList, v110), ("bar".toList, v200)]
        ∧ sampleData2 ≠ [])
      ∧ (removeDuplicates sampleData2 [("foo".toList, v110), ("bar".toList, v200)]
            "exts".toList true [] failOracle
          = some (Event.mkdirOldVersions :: expectedEvents "exts".toList failOracle sampleData2)
        ∧ attemptsOf (expectedEvents "exts".toList failOracle sampleData2)
            = expectedAttempts "exts".toList sampleData2
        ∧ ∀ n v s d, (n, v, s, d) ∈ expectedAttempts "exts".toList sampleData2 →
            (failOracle s d = none →
                Event.movedOk s d ∈ expectedEvents "exts".toList failOracle sampleData2)
              ∧ ∀ r, failOracle s d = some r →
                  Event.moveError s d r
                    ∈ expectedEvents "exts".toList failOracle sampleData2) :=
  ⟨⟨by decide, by decide, by decide⟩,
    remove_duplicates_failures_isolated "exts".toList true [] failOracle
      (by decide) (by decide) (Or.inl rfl) (by decide)⟩

/-- C8: with duplicates present, the skip-confirmation flag unset and an
interactive answer whose lowercase form differs from `yes`, the trace of
`remove_duplicates` is exactly the single `No duplicates removed.`
print: no quarantine-directory creation and no move event occur. -/
theorem remove_duplicates_declined (dups : List (Str × List Version))
    (latest : List (Str × Version)) (root : Str) (answer : Str) (oracle : MoveOracle)
    (hne : dups ≠ []) (hans : pyLower answer ≠ "yes".toList) :
    removeDuplicates dups latest root false answer oracle
      = some [Event.printNoDuplicatesRemoved] := by
  rw [removeDuplicates, if_neg (by simp [hne]), if_neg (by simpa using hans)]

/-- Witness for C8: the sample dictionary with the declined answer `No`. -/
theorem remove_duplicates_declined_witness :
    (sampleData ≠ [] ∧ pyLower "No".toList ≠ "yes".toList)
      ∧ removeDuplicates sampleData [("foo".toList, v110)] "exts".toList false
          "No".toList (fun _ _ => none)
        = some [Event.printNoDuplicatesRemoved] :=
  ⟨⟨by decide, by decide⟩,
    remove_duplicates_declined sampleData [("foo".toList, v110)] "exts".toList
      "No".toList (fun _ _ => none) (by decide) (by decide)⟩

/-- Witness for C5 at the dictionary mapping `foo` to `[1.0.0, 1.1.0]`. -/
theorem get_latest_versions_is_max_witness :
    (("foo".toList, [v100, v110]) ∈ findDuplicates sampleData)
      ∧ (getLatestVersions (findDuplicates sampleData)
          = some ((findDuplicates sampleData).map (fun p => (p.1, pyMaxOf p.2)))
        ∧ ("foo".toList, pyMaxOf [v100, v110])
            ∈ (findDuplicates sampleData).map (fun p => (p.1, pyMaxOf p.2))
        ∧ pyMaxOf [v100, v110] ∈ [v100, v110]
        ∧ ∀ v ∈ [v100, v110], cmpVersion v (pyMaxOf [v100, v110]) ≠ .gt) :=
  ⟨by decide, get_latest_versions_is_max sampleData "foo".toList [v100, v110] (by decide)⟩

/-! Splitting and joining lemmas. -/

theorem splitOnCharAux_no_sep (sep : Char) :
    ∀ s : Str, sep ∉ s → splitOnCharAux sep s = (s, [])
  | [], _ => rfl
  | c :: cs, h => by
    have hc : ¬c = sep := fun hc => h (hc ▸ List.mem_cons_self c cs)
    simp only [splitOnCharAux, if_neg hc,
      splitOnCharAux_no_sep sep cs (fun hm => h (List.mem_cons_of_mem c hm))]

theorem splitOnChar_no_sep (sep : Char) (s : Str) (h : sep ∉ s) :
    splitOnChar sep s = [s] := by
  rw [splitOnChar, splitOnCharAux_no_sep sep s h]

theorem splitOnCharAux_sep_append (sep : Char) :
    ∀ x y : Str,
      splitOnCharAux sep (x ++ sep :: y)
        = ((splitOnCharAux sep x).1, (splitOnCharAux sep x).2 ++ splitOnChar sep y)
  | [], y => by simp [splitOnCharAux, splitOnChar]
  | c :: cs, y => by
    by_cases hc : c = sep <;>
      simp [List.cons_append, splitOnCharAux, splitOnCharAux_sep_append sep cs y, hc,
        splitOnChar]

theorem splitOnChar_sep_append (sep : Char) (x y : Str) :
    splitOnChar sep (x ++ sep :: y) = splitOnChar sep x ++ splitOnChar sep y := by
  rw [splitOnChar, splitOnCharAux_sep_append, splitOnChar]
  rfl

theorem joinChar_cons_cons (sep c : Char) (p : Str) (ps : List Str) :
    joinChar sep ((c :: p) :: ps) = c :: joinChar sep (p :: ps) := by
  cases ps <;> rfl

theorem joinChar_splitOnChar (sep : Char) : ∀ s : Str, joinChar sep (splitOnChar sep s) = s
  | [] => rfl
  | c :: cs => by
    by_cases hc : c = sep
    · show joinChar sep ((splitOnCharAux sep (c :: cs)).1
        :: (splitOnCharAux sep (c :: cs)).2) = c :: cs
      simp only [splitOnCharAux, if_pos hc]
      show joinChar sep ([] :: (splitOnCharAux sep cs).1 :: (splitOnCharAux sep cs).2) = c :: cs
      simp only [joinChar, List.nil_append]
      rw [show (splitOnCharAux sep cs).1 :: (splitOnCharAux sep cs).2
          = splitOnChar sep cs from rfl]
      rw [joinChar_splitOnChar sep cs, hc]
    · show joinChar sep ((splitOnCharAux sep (c :: cs)).1
        :: (splitOnCharAux sep (c :: cs)).2) = c :: cs
      simp only [splitOnCharAux, if_neg hc]
      rw [joinChar_cons_cons]
      rw [show (splitOnCharAux sep cs).1 :: (splitOnCharAux sep cs).2
          = splitOnChar sep cs from rfl]
      rw [joinChar_splitOnChar sep cs]

theorem splitOnChar_ne_nil (sep : Char) (s : Str) : splitOnChar sep s ≠ [] := by
  rw [splitOnChar]; exact fun h => nomatch h

/-! Lemmas about the candidate scan. -/

theorem trySplits_skip (parts : List Str) :
    ∀ (js is : List Nat),
      (∀ j ∈ js, parseVersion (joinChar '-' (parts.drop j)) = none) →
      trySplits parts (js ++ is) = trySplits parts is
  | [], _, _ => rfl
  | j :: js, is, h => by
    rw [List.cons_append]
    show (if (parseVersion (joinChar '-' (parts.drop j))).isSome
        then some (joinChar '-' (parts.take j), joinChar '-' (parts.drop j))
        else trySplits parts (js ++ is)) = trySplits parts is
    rw [if_neg (by rw [h j (List.mem_cons_self _ _)]; simp),
      trySplits_skip parts js is (fun q hq => h q (List.mem_cons_of_mem _ hq))]

theorem trySplits_found (parts : List Str) (i : Nat) (is : List Nat)
    (hp : (parseVersion (joinChar '-' (parts.drop i))).isSome = true) :
    trySplits parts (i :: is)
      = some (joinChar '-' (parts.take i), joinChar '-' (parts.drop i)) := by
  show (if (parseVersion (joinChar '-' (parts.drop i))).isSome
      then some (joinChar '-' (parts.take i), joinChar '-' (parts.drop i))
      else trySplits parts is)
    = some (joinChar '-' (parts.take i), joinChar '-' (parts.drop i))
  rw [if_pos hp]

theorem splitIndices_split {i n : Nat} (h1 : 1 ≤ i) (h2 : i < n) :
    splitIndices n
      = (List.range' (i + 1) (n - 1 - i)).reverse
          ++ i :: (List.range' 1 (i - 1)).reverse := by
  rw [splitIndices]
  have hr : List.range' 1 (n - 1) = List.range' 1 i ++ List.range' (i + 1) (n - 1 - i) := by
    have h := List.range'_append_1 1 i (n - 1 - i)
    rw [show n - 1 - i + i = n - 1 by omega, show 1 + i = i + 1 by omega] at h
    exact h.symm
  have hi : List.range' 1 i = List.range' 1 (i - 1) ++ [i] := by
    have h := List.range'_1_concat 1 (i - 1)
    rw [show i - 1 + 1 = i by omega, show 1 + (i - 1) = i by omega] at h
    exact h
  rw [hr, hi, List.reverse_append, List.reverse_append, List.reverse_singleton]
  simp

/-- C1 (amended): the parser's split is the one found by the
SHORTEST-suffix-first search: if index `i` (counted in hyphen-separated
parts, suffix `parts[i:]`) gives a parseable candidate and every larger
index — that is, every shorter trailing suffix — does not, then the
split keeps `parts[:i]` as the name and `parts[i:]` as the version
string. -/
theorem parse_dir_name_shortest_suffix (dir : Str) (i : Nat)
    (h1 : 1 ≤ i) (h2 : i < (splitOnChar '-' dir).length)
    (hp : (parseVersion (joinChar '-' ((splitOnChar '-' dir).drop i))).isSome = true)
    (hmax : ∀ j, i < j → j < (splitOnChar '-' dir).length →
        parseVersion (joinChar '-' ((splitOnChar '-' dir).drop j)) = none) :
    parseDirName dir
      = (joinChar '-' ((splitOnChar '-' dir).take i),
          some (joinChar '-' ((splitOnChar '-' dir).drop i))) := by
  rw [parseDirName, splitIndices_split h1 h2,
    trySplits_skip (splitOnChar '-' dir) _ _ (fun j hj => by
      rw [List.mem_reverse, List.mem_range'_1] at hj
      exact hmax j (by omega) (by omega)),
    trySplits_found _ _ _ hp]

/-- Witness for the amended C1 at `x-1.0.0-beta`: the shortest suffix
`beta` fails to parse, and the split takes the longer suffix
`1.0.0-beta`, keeping `x` as the name. -/
theorem parse_dir_name_shortest_suffix_witness :
    (1 ≤ 1 ∧ 1 < (splitOnChar '-' "x-1.0.0-beta".toList).length
        ∧ (parseVersion (joinChar '-' ((splitOnChar '-' "x-1.0.0-beta".toList).drop 1))).isSome
            = true)
      ∧ parseDirName "x-1.0.0-beta".toList
          = (joinChar '-' ((splitOnChar '-' "x-1.0.0-beta".toList).take 1),
              some (joinChar '-' ((splitOnChar '-' "x-1.0.0-beta".toList).drop 1))) :=
  ⟨⟨by decide, by decide, by decide⟩,
    parse_dir_name_shortest_suffix "x-1.0.0-beta".toList 1 (by decide) (by decide) (by decide)
      (fun j hj1 hj2 => by
        have hj : j = 2 := by
          have : (splitOnChar '-' "x-1.0.0-beta".toList).length = 3 := by decide
          omega
        subst hj
        decide)⟩

/-- Counterexample to C1 as stated: on `a-1.2.3-4.5.6` the code returns
the split with the SHORTEST parsing suffix, `("a-1.2.3", "4.5.6")`,
while the longest-suffix-first search described by the spec returns
`("a", "1.2.3-4.5.6")` (that candidate is a valid semantic version with
prerelease `4.5.6`), so the two disagree. -/
theorem parse_dir_name_not_longest_first :
    parseDirName "a-1.2.3-4.5.6".toList = ("a-1.2.3".toList, some "4.5.6".toList)
      ∧ longestFirstSplit "a-1.2.3-4.5.6".toList = ("a".toList, some "1.2.3-4.5.6".toList)
      ∧ parseDirName "a-1.2.3-4.5.6".toList ≠ longestFirstSplit "a-1.2.3-4.5.6".toList := by
  refine ⟨by decide, by decide, by decide⟩

/-! Lemmas about entries with no parsing suffix and about diagnostics. -/

theorem parseDirName_no_parse (dir : Str)
    (h : ∀ j, 1 ≤ j → j < (splitOnChar '-' dir).length →
        parseVersion (joinChar '-' ((splitOnChar '-' dir).drop j)) = none) :
    parseDirName dir = (dir, none) := by
  have hnone : trySplits (splitOnChar '-' dir) (splitIndices (splitOnChar '-' dir).length)
      = none := by
    have h2 := trySplits_skip (splitOnChar '-' dir)
      (splitIndices (splitOnChar '-' dir).length) []
      (fun j hj => by
        rw [splitIndices, List.mem_reverse, List.mem_range'_1] at hj
        exact h j hj.1 (by omega))
    rw [List.append_nil] at h2
    rw [h2]
    rfl
  simp only [parseDirName, hnone]

theorem trySplits_isSome_snd :
    ∀ (parts : List Str) (is : List Nat) (nv : Str × Str),
      trySplits parts is = some nv → (parseVersion nv.2).isSome = true
  | _, [], _, h => nomatch h
  | parts, i :: is, nv, h => by
    revert h
    show (if (parseVersion (joinChar '-' (parts.drop i))).isSome
        then some (joinChar '-' (parts.take i), joinChar '-' (parts.drop i))
        else trySplits parts is) = some nv → _
    by_cases hp : (parseVersion (joinChar '-' (parts.drop i))).isSome = true
    · rw [if_pos hp]
      intro h
      rcases Option.some_inj.mp h with rfl
      exact hp
    · rw [if_neg hp]
      exact trySplits_isSome_snd parts is nv

theorem parseDirName_some_parses {dir n vstr : Str}
    (h : parseDirName dir = (n, some vstr)) : (parseVersion vstr).isSome = true := by
  simp only [parseDirName] at h
  cases htry : trySplits (splitOnChar '-' dir) (splitIndices (splitOnChar '-' dir).length) with
  | none =>
    rw [htry] at h
    exact absurd (congrArg Prod.snd h) (by simp)
  | some nv =>
    rw [htry] at h
    have h2 : some nv.2 = some vstr := congrArg Prod.snd h
    rw [← Option.some_inj.mp h2]
    exact trySplits_isSome_snd _ _ _ htry

theorem scanStep_versionless (st : ExtData × List Diag) {dir : Str}
    (h : parseDirName dir = (dir, none)) :
    scanStep st (dir, true) = (setdefaultEmpty st.1 dir, st.2) := by
  simp [scanStep, h]

theorem scanStep_no_diag (st : ExtData × List Diag) (e : Str × Bool) :
    (scanStep st e).2 = st.2 := by
  simp only [scanStep]
  by_cases he : e.2 = true
  · rw [if_pos he]
    cases hdir : (parseDirName e.1).2 with
    | none => rfl
    | some vstr =>
      show (match parseVersion vstr with
        | some v =>
          (extendAt (setdefaultEmpty st.1 (parseDirName e.1).1) (parseDirName e.1).1 [v],
            st.2)
        | none =>
          (extendAt (setdefaultEmpty st.1 (parseDirName e.1).1) (parseDirName e.1).1 [],
            st.2 ++ [(e.1, vstr)])).2 = st.2
      cases hv : parseVersion vstr with
      | some v => rfl
      | none =>
        have hpair : parseDirName e.1 = ((parseDirName e.1).1, some vstr) := by
          rw [← hdir]
        have hps := parseDirName_some_parses hpair
        rw [hv] at hps
        exact absurd hps (by simp)
  · rw [if_neg he]

theorem foldl_scanStep_diags :
    ∀ (entries : List (Str × Bool)) (st : ExtData × List Diag),
      (entries.foldl scanStep st).2 = st.2
  | [], _ => rfl
  | e :: es, st => by
    rw [List.foldl_cons, foldl_scanStep_diags es, scanStep_no_diag]

theorem alistLookup_append_none {β : Type} {k : Str} :
    ∀ {d : List (Str × β)}, alistLookup d k = none →
      ∀ e : List (Str × β), alistLookup (d ++ e) k = alistLookup e k
  | [], _, e => rfl
  | (k0, v0) :: rest, h, e => by
    rw [alistLookup] at h
    by_cases hk : k0 = k
    · rw [if_pos hk] at h
      exact absurd h (by simp)
    · rw [if_neg hk] at h
      rw [List.cons_append, alistLookup, if_neg hk]
      exact alistLookup_append_none h e

theorem alistLookup_isSome_mem {β : Type} {k : Str} :
    ∀ {d : List (Str × β)}, (alistLookup d k).isSome = true → k ∈ d.map Prod.fst
  | [], h => absurd h (by simp [alistLookup])
  | (k0, v0) :: rest, h => by
    rw [alistLookup] at h
    by_cases hk : k0 = k
    · rw [List.map_cons]
      exact hk ▸ List.mem_cons_self _ _
    · rw [if_neg hk] at h
      exact List.mem_cons_of_mem _ (alistLookup_isSome_mem h)

theorem alistLookup_setdefaultEmpty (d : ExtData) (k : Str) :
    alistLookup (setdefaultEmpty d k) k = some ((alistLookup d k).getD []) := by
  rw [setdefaultEmpty]
  cases h : alistLookup d k with
  | some l =>
    rw [if_pos (show (some l : Option (List Version)).isSome = true from rfl), h]
    rfl
  | none =>
    rw [if_neg (by simp [h]), alistLookup_append_none h]
    simp [alistLookup]

theorem setdefaultEmpty_key_mem (d : ExtData) (k : Str) :
    k ∈ (setdefaultEmpty d k).map Prod.fst := by
  rw [setdefaultEmpty]
  by_cases h : (alistLookup d k).isSome = true
  · rw [if_pos h]
    exact alistLookup_isSome_mem h
  · rw [if_neg h]
    simp

theorem getExtensionData_snoc (entries : List (Str × Bool)) (e : Str × Bool) :
    getExtensionData (entries ++ [e]) = scanStep (getExtensionData entries) e := by
  rw [getExtensionData, getExtensionData, List.foldl_concat]

/-- C2 (amended): when no trailing hyphen-delimited suffix of a
directory name parses as a semantic version, the parser does NOT fall
back to the last hyphen-delimited segment: the split keeps the whole
name with no version string, and processing such an entry only
`setdefault`s the full name — the entry is recorded with an empty
version list when its key is fresh, and no version is recorded. -/
theorem no_parse_keeps_full_name (dir : Str)
    (h : ∀ j, 1 ≤ j → j < (splitOnChar '-' dir).length →
        parseVersion (joinChar '-' ((splitOnChar '-' dir).drop j)) = none) :
    parseDirName dir = (dir, none)
      ∧ ∀ st : ExtData × List Diag,
          scanStep st (dir, true) = (setdefaultEmpty st.1 dir, st.2) :=
  ⟨parseDirName_no_parse dir h,
    fun st => scanStep_versionless st (parseDirName_no_parse dir h)⟩

/-- Witness for the amended C2 at `my-extension-v1.0.0`: both trailing
candidates fail to parse and the entry keeps its full name. -/
theorem no_parse_keeps_full_name_witness :
    parseDirName "my-extension-v1.0.0".toList = ("my-extension-v1.0.0".toList, none)
      ∧ ∀ st : ExtData × List Diag,
          scanStep st ("my-extension-v1.0.0".toList, true)
            = (setdefaultEmpty st.1 "my-extension-v1.0.0".toList, st.2) :=
  no_parse_keeps_full_name "my-extension-v1.0.0".toList
    (fun j hj1 hj2 => by
      have hlen : (splitOnChar '-' "my-extension-v1.0.0".toList).length = 3 := by decide
      have hj : j = 1 ∨ j = 2 := by omega
      rcases hj with rfl | rfl <;> decide)

/-- Counterexample to C2 as stated: for the directory
`my-extension-v1.0.0` no trailing hyphen-delimited suffix parses, and
the scan records the entry under its FULL name with an EMPTY version
list: the last segment `v1.0.0` is not recorded as a version, and no
entry exists under the shortened name `my-extension`. -/
theorem last_segment_fallback_counterexample :
    parseDirName "my-extension-v1.0.0".toList = ("my-extension-v1.0.0".toList, none)
      ∧ (getExtensionData [("my-extension-v1.0.0".toList, true)]).1
          = [("my-extension-v1.0.0".toList, [])]
      ∧ alistLookup (getExtensionData [("my-extension-v1.0.0".toList, true)]).1
          "my-extension".toList = none :=
  ⟨by decide, by decide, by decide⟩

/-- C10 (amended): a scanned subdirectory whose name has no trailing
hyphen-delimited suffix that parses is never skipped and never given a
default version: appending it to any listing only `setdefault`s its full
directory name — the key is present afterwards, its version list is
exactly what OTHER entries contributed (the previous list, or the empty
list when the key is fresh), and the entry itself contributes no
version and no diagnostic. -/
theorem versionless_entry_retained (entries : List (Str × Bool)) (dir : Str)
    (h : parseDirName dir = (dir, none)) :
    getExtensionData (entries ++ [(dir, true)])
        = (setdefaultEmpty (getExtensionData entries).1 dir, (getExtensionData entries).2)
      ∧ dir ∈ (getExtensionData (entries ++ [(dir, true)])).1.map Prod.fst
      ∧ alistLookup (getExtensionData (entries ++ [(dir, true)])).1 dir
          = some ((alistLookup (getExtensionData entries).1 dir).getD []) := by
  have hstep : getExtensionData (entries ++ [(dir, true)])
      = (setdefaultEmpty (getExtensionData entries).1 dir, (getExtensionData entries).2) := by
    rw [getExtensionData_snoc, scanStep_versionless _ h]
  refine ⟨hstep, ?_, ?_⟩
  · rw [hstep]
    exact setdefaultEmpty_key_mem _ _
  · rw [hstep]
    exact alistLookup_setdefaultEmpty _ _

/-- Witness for the amended C10: appending the versionless `foo` after
`foo-1.0.0` keeps the key `foo` mapped to the list `[1.0.0]` contributed
by the other entry. -/
theorem versionless_entry_retained_witness :
    parseDirName "foo".toList = ("foo".toList, none)
      ∧ (getExtensionData [("foo-1.0.0".toList, true), ("foo".toList, true)]
          = (setdefaultEmpty (getExtensionData [("foo-1.0.0".toList, true)]).1 "foo".toList,
              (getExtensionData [("foo-1.0.0".toList, true)]).2)
        ∧ "foo".toList
            ∈ (getExtensionData [("foo-1.0.0".toList, true), ("foo".toList, true)]).1.map
                Prod.fst
        ∧ alistLookup (getExtensionData [("foo-1.0.0".toList, true), ("foo".toList, true)]).1
              "foo".toList
            = some ((alistLookup (getExtensionData [("foo-1.0.0".toList, true)]).1
                "foo".toList).getD [])) :=
  ⟨by decide, versionless_entry_retained [("foo-1.0.0".toList, true)] "foo".toList (by decide)⟩

/-- Counterexample to C10 as stated: with `foo-1.0.0` listed before the
versionless directory `foo`, the key `foo` ends up mapped to `[1.0.0]`,
not to an empty version list, and the name `foo` can become a duplicate
through versions contributed by other entries. -/
theorem versionless_entry_counterexample :
    (getExtensionData [("foo-1.0.0".toList, true), ("foo".toList, true)]).1
        = [("foo".toList, [v100])]
      ∧ ¬alistLookup (getExtensionData [("foo-1.0.0".toList, true), ("foo".toList, true)]).1
            "foo".toList = some [] :=
  ⟨by decide, by decide⟩

/-- C4 (amended): the diagnostic branch of `get_extension_data` is dead
code — the version string is re-parsed only after an identical parse
already succeeded — so NO diagnostic line is ever emitted; an entry
whose trailing candidates resemble but fail semantic-version parsing is
recorded silently with its version skipped, and the scan continues over
the remaining entries from the resulting state. -/
theorem unparseable_entries_silent (entries1 entries2 : List (Str × Bool)) (dir : Str)
    (h : parseDirName dir = (dir, none)) :
    (getExtensionData (entries1 ++ (dir, true) :: entries2)).2 = []
      ∧ getExtensionData (entries1 ++ (dir, true) :: entries2)
          = entries2.foldl scanStep
              (setdefaultEmpty (getExtensionData entries1).1 dir,
                (getExtensionData entries1).2) := by
  constructor
  · rw [getExtensionData, foldl_scanStep_diags]
  · rw [getExtensionData, List.foldl_append, List.foldl_cons,
      scanStep_versionless _ h]
    rfl

/-- Witness for the amended C4: scanning `my-extension-v1.0.0` between
two versioned entries emits no diagnostic and the scan continues. -/
theorem unparseable_entries_silent_witness :
    (getExtensionData [("foo-1.0.0".toList, true), ("my-extension-v1.0.0".toList, true),
          ("foo-1.1.0".toList, true)]).2 = []
      ∧ getExtensionData [("foo-1.0.0".toList, true), ("my-extension-v1.0.0".toList, true),
            ("foo-1.1.0".toList, true)]
          = [("foo-1.1.0".toList, true)].foldl scanStep
              (setdefaultEmpty (getExtensionData [("foo-1.0.0".toList, true)]).1
                  "my-extension-v1.0.0".toList,
                (getExtensionData [("foo-1.0.0".toList, true)]).2) :=
  unparseable_entries_silent [("foo-1.0.0".toList, true)] [("foo-1.1.0".toList, true)]
    "my-extension-v1.0.0".toList (by decide)

/-- Counterexample to C4 as stated: the trailing candidate `v1.0.0`
resembles a version but fails semantic-version parsing, yet processing
the entry emits NO diagnostic line (for any listing the diagnostic list
is empty, because the `except ValueError` print is unreachable). -/
theorem no_diagnostic_emitted_counterexample :
    parseVersion "v1.0.0".toList = none
      ∧ (getExtensionData [("my-extension-v1.0.0".toList, true)]).2 = [] :=
  ⟨by decide, by decide⟩

/-! Decimal rendering lemmas and the round trip. -/

theorem digitCh_isDigit {n : Nat} (h : n < 10) : isDigitCh (digitCh n) = true := by
  interval_cases n <;> decide

theorem digitVal_digitCh {n : Nat} (h : n < 10) : digitVal (digitCh n) = n := by
  interval_cases n <;> decide

theorem digitCh_ne_zero {n : Nat} (h1 : 1 ≤ n) (h2 : n < 10) : digitCh n ≠ '0' := by
  interval_cases n <;> decide

theorem natToChars_eq (n : Nat) :
    natToChars n
      = if n < 10 then [digitCh n] else natToChars (n / 10) ++ [digitCh (n % 10)] := by
  conv_lhs => rw [natToChars]
  by_cases h : n < 10
  · rw [dif_pos h, if_pos h]
  · rw [dif_neg h, if_neg h]

theorem natToChars_ne_nil (n : Nat) : natToChars n ≠ [] := by
  rw [natToChars_eq]
  by_cases h : n < 10
  · rw [if_pos h]
    exact fun hx => nomatch hx
  · rw [if_neg h]
    simp

theorem natToChars_all_digits (n : Nat) : ∀ c ∈ natToChars n, isDigitCh c = true := by
  induction n using Nat.strong_induction_on with
  | _ n ih =>
    rw [natToChars_eq]
    by_cases h : n < 10
    · rw [if_pos h]
      intro c hc
      rw [List.mem_singleton] at hc
      subst hc
      exact digitCh_isDigit h
    · rw [if_neg h]
      intro c hc
      rcases List.mem_append.mp hc with hc | hc
      · exact ih (n / 10) (Nat.div_lt_self (by omega) (by omega)) c hc
      · rw [List.mem_singleton] at hc
        subst hc
        exact digitCh_isDigit (Nat.mod_lt _ (by omega))

theorem digitsToNat_append_digit (s : Str) (c : Char) :
    digitsToNat (s ++ [c]) = 10 * digitsToNat s + digitVal c := by
  rw [digitsToNat, digitsToNat, List.foldl_concat]

theorem digitsToNat_natToChars (n : Nat) : digitsToNat (natToChars n) = n := by
  induction n using Nat.strong_induction_on with
  | _ n ih =>
    rw [natToChars_eq]
    by_cases h : n < 10
    · rw [if_pos h]
      show digitsToNat [digitCh n] = n
      rw [digitsToNat, List.foldl_cons, List.foldl_nil]
      show 10 * 0 + digitVal (digitCh n) = n
      rw [digitVal_digitCh h]
      omega
    · rw [if_neg h, digitsToNat_append_digit,
        ih (n / 10) (Nat.div_lt_self (by omega) (by omega)),
        digitVal_digitCh (Nat.mod_lt _ (by omega))]
      omega

theorem natToChars_head_ne_zero :
    ∀ n : Nat, n ≠ 0 → ∀ c cs, natToChars n = c :: cs → c ≠ '0' := by
  intro n
  induction n using Nat.strong_induction_on with
  | _ n ih =>
    intro hn c cs hc
    rw [natToChars_eq] at hc
    by_cases h : n < 10
    · rw [if_pos h] at hc
      injection hc with h1 _
      exact h1 ▸ digitCh_ne_zero (by omega) h
    · rw [if_neg h] at hc
      cases hq : natToChars (n / 10) with
      | nil => exact absurd hq (natToChars_ne_nil _)
      | cons c0 cs0 =>
        rw [hq, List.cons_append] at hc
        injection hc with h1 _
        exact h1 ▸ ih (n / 10) (Nat.div_lt_self (by omega) (by omega)) (by omega) c0 cs0 hq

theorem parseNum_cons_cons (c c2 : Char) (cs : Str) :
    parseNum (c :: c2 :: cs)
      = if c = '0' then none
        else if (c :: c2 :: cs).all isDigitCh then some (digitsToNat (c :: c2 :: cs))
        else none := rfl

theorem parseNum_natToChars (n : Nat) : parseNum (natToChars n) = some n := by
  by_cases h : n < 10
  · rw [natToChars_eq, if_pos h]
    show (if isDigitCh (digitCh n) then some (digitVal (digitCh n)) else none) = some n
    rw [if_pos (digitCh_isDigit h), digitVal_digitCh h]
  · have hall : ∀ c ∈ natToChars n, isDigitCh c = true := natToChars_all_digits n
    have hdsum : digitsToNat (natToChars n) = n := digitsToNat_natToChars n
    rw [natToChars_eq, if_neg h] at hall hdsum ⊢
    cases hq : natToChars (n / 10) with
    | nil => exact absurd hq (natToChars_ne_nil _)
    | cons c0 cs0 =>
      rw [hq] at hall hdsum
      have hc0 : c0 ≠ '0' :=
        natToChars_head_ne_zero (n / 10) (by omega) c0 cs0 hq
      cases cs0 with
      | nil =>
        simp only [List.cons_append, List.nil_append] at hall hdsum ⊢
        rw [parseNum_cons_cons, if_neg hc0, if_pos (List.all_eq_true.mpr hall), hdsum]
      | cons c1 cs1 =>
        simp only [List.cons_append] at hall hdsum ⊢
        rw [parseNum_cons_cons, if_neg hc0, if_pos (List.all_eq_true.mpr hall), hdsum]

theorem splitAtFirst_no_sep (sep : Char) :
    ∀ s : Str, sep ∉ s → splitAtFirst sep s = (s, none)
  | [], _ => rfl
  | c :: cs, h => by
    have hc : ¬c = sep := fun hc => h (hc ▸ List.mem_cons_self c cs)
    simp only [splitAtFirst, if_neg hc,
      splitAtFirst_no_sep sep cs (fun hm => h (List.mem_cons_of_mem c hm))]

theorem verStr_chars {mj mn pt : Nat} :
    ∀ c ∈ verStr mj mn pt, isDigitCh c = true ∨ c = '.' := by
  intro c hc
  rw [verStr] at hc
  rcases List.mem_append.mp hc with hc | hc
  · rcases List.mem_append.mp hc with hc | hc
    · exact Or.inl (natToChars_all_digits mj c hc)
    · rcases List.mem_cons.mp hc with rfl | hc
      · exact Or.inr rfl
      · exact Or.inl (natToChars_all_digits mn c hc)
  · rcases List.mem_cons.mp hc with rfl | hc
    · exact Or.inr rfl
    · exact Or.inl (natToChars_all_digits pt c hc)

theorem dash_not_mem_verStr (mj mn pt : Nat) : '-' ∉ verStr mj mn pt := by
  intro h
  rcases verStr_chars _ h with hd | hd
  · exact absurd hd (by decide)
  · exact absurd hd (by decide)

theorem plus_not_mem_verStr (mj mn pt : Nat) : '+' ∉ verStr mj mn pt := by
  intro h
  rcases verStr_chars _ h with hd | hd
  · exact absurd hd (by decide)
  · exact absurd hd (by decide)

theorem dot_not_mem_natToChars (k : Nat) : '.' ∉ natToChars k := by
  intro h
  exact absurd (natToChars_all_digits k '.' h) (by decide)

theorem splitOnChar_verStr (mj mn pt : Nat) :
    splitOnChar '.' (verStr mj mn pt)
      = [natToChars mj, natToChars mn, natToChars pt] := by
  rw [verStr, splitOnChar_sep_append, splitOnChar_sep_append,
    splitOnChar_no_sep _ _ (dot_not_mem_natToChars mj),
    splitOnChar_no_sep _ _ (dot_not_mem_natToChars mn),
    splitOnChar_no_sep _ _ (dot_not_mem_natToChars pt)]
  rfl

theorem parseVersion_verStr (mj mn pt : Nat) :
    parseVersion (verStr mj mn pt) = some ⟨mj, mn, pt, [], []⟩ := by
  have h1 : splitAtFirst '+' (verStr mj mn pt) = (verStr mj mn pt, none) :=
    splitAtFirst_no_sep '+' _ (plus_not_mem_verStr mj mn pt)
  have h2 : splitAtFirst '-' (verStr mj mn pt) = (verStr mj mn pt, none) :=
    splitAtFirst_no_sep '-' _ (dash_not_mem_verStr mj mn pt)
  simp only [parseVersion, h1, h2, splitOnChar_verStr, parseNum_natToChars,
    parsePre, parseBuild]

/-- C9: for every nonempty logical name and canonical decimal numerals,
the directory `<name>-<major>.<minor>.<patch>` parses to the logical
name and the version string `<major>.<minor>.<patch>`, that string
parses to the version `(major, minor, patch)`, and rejoining the name
and the rendered parsed version with a hyphen reconstructs the original
directory name. -/
theorem round_trip (name : Str) (_hname : name ≠ []) (mj mn pt : Nat) :
    parseDirName (name ++ '-' :: verStr mj mn pt) = (name, some (verStr mj mn pt))
      ∧ parseVersion (verStr mj mn pt) = some ⟨mj, mn, pt, [], []⟩
      ∧ name ++ '-' :: renderVersion ⟨mj, mn, pt, [], []⟩
          = name ++ '-' :: verStr mj mn pt := by
  refine ⟨?_, parseVersion_verStr mj mn pt, ?_⟩
  · have hsplit : splitOnChar '-' (name ++ '-' :: verStr mj mn pt)
        = splitOnChar '-' name ++ [verStr mj mn pt] := by
      rw [splitOnChar_sep_append, splitOnChar_no_sep '-' _ (dash_not_mem_verStr mj mn pt)]
    have hlen : (splitOnChar '-' (name ++ '-' :: verStr mj mn pt)).length
        = (splitOnChar '-' name).length + 1 := by
      rw [hsplit, List.length_append, List.length_singleton]
    have hdrop : (splitOnChar '-' (name ++ '-' :: verStr mj mn pt)).drop
        (splitOnChar '-' name).length = [verStr mj mn pt] := by
      rw [hsplit, List.drop_left]
    have htake : (splitOnChar '-' (name ++ '-' :: verStr mj mn pt)).take
        (splitOnChar '-' name).length = splitOnChar '-' name := by
      rw [hsplit, List.take_left]
    have hK : 1 ≤ (splitOnChar '-' name).length := by
      rw [splitOnChar, List.length_cons]
      omega
    have h := parse_dir_name_shortest_suffix (name ++ '-' :: verStr mj mn pt)
      (splitOnChar '-' name).length hK (by rw [hlen]; omega)
      (by rw [hdrop]
          show (parseVersion (verStr mj mn pt)).isSome = true
          rw [parseVersion_verStr]
          rfl)
      (fun j hj1 hj2 => by rw [hlen] at hj2; omega)
    rw [h, hdrop, htake, joinChar_splitOnChar]
    rfl
  · simp [renderVersion, verStr]

/-- Witness for C9 at name `my-extension` and version `1.0.0`. -/
theorem round_trip_witness :
    ("my-extension".toList ≠ [])
      ∧ (parseDirName ("my-extension".toList ++ '-' :: verStr 1 0 0)
            = ("my-extension".toList, some (verStr 1 0 0))
        ∧ parseVersion (verStr 1 0 0) = some ⟨1, 0, 0, [], []⟩
        ∧ "my-extension".toList ++ '-' :: renderVersion ⟨1, 0, 0, [], []⟩
            = "my-extension".toList ++ '-' :: verStr 1 0 0) :=
  ⟨by decide, round_trip "my-extension".toList (by decide) 1 0 0⟩

end VSCodeDup

section SanityChecks
open VSCodeDup

example : parseVersion "1.0.0".toList = some ⟨1, 0, 0, [], []⟩ := by decide
example : (parseVersion "v1.0.0".toList).isSome = false := by decide
example : parseVersion "1.2.3-4.5.6".toList
    = some ⟨1, 2, 3, ["4".toList, "5".toList, "6".toList], []⟩ := by decide
example : parseDirName "my-extension-1.0.0".toList
    = ("my-extension".toList, some "1.0.0".toList) := by decide
example : parseDirName "a-1.2.3-4.5.6".toList
    = ("a-1.2.3".toList, some "4.5.6".toList) := by decide
example : parseDirName "my-extension-v1.0.0".toList
    = ("my-extension-v1.0.0".toList, none) := by decide
example : parseVersion "1.0.0-01".toList = none := by decide
example : parseVersion "1.0.0+build.01-x".toList
    = some ⟨1, 0, 0, [], ["build".toList, "01-x".toList]⟩ := by decide

end SanityChecks
